import Mathlib

/-!
# Verification of the ObsidiGit history-analysis core

Shallow embedding of the repository's two Python source files:

* `src/api/index.py` — `analyze_history(commits, subpath)`, `get_file_type`,
  `generate_json` (the serverless variant with scope filtering and
  directory clustering);
* `src/git_evolution.py` — the CLI variant of `analyze_history`,
  `get_file_type` and `generate_json`.

Python strings are modelled as Lean `String`s manipulated through their
`List Char` of code points (Python indexing/slicing/len are code-point
based).  Python `dict`s (insertion ordered) are modelled as association
lists where an update rewrites the entry in place and an insertion
appends at the end.  `collections.Counter` is modelled the same way with
a default of `0` on missing keys.
-/

/-- A commit record as produced by `get_commits` / `parse_log`:
`{hash, timestamp, author, subject, files}`. -/
structure Commit where
  hash : String
  timestamp : Int
  author : String
  subject : String
  files : List String
deriving Repr, DecidableEq

/-- One value of the `file_metadata` dict of `src/api/index.py`:
`{size, createdAt, owner}`. -/
structure FileMeta where
  size : Nat
  createdAt : Int
  owner : String
deriving Repr, DecidableEq

/-- `file_metadata` of `src/api/index.py`: a `path -> FileMeta` dict in
insertion order. -/
abbrev Metadata := List (String × FileMeta)

/-- `couplings`: a `Counter` keyed by a pair of paths. -/
abbrev Couplings := List ((String × String) × Nat)

/-- Python `dict` lookup (also the `k in d` test via `Option.isSome`). -/
def alookup {κ α : Type} [DecidableEq κ] (k : κ) : List (κ × α) → Option α
  | [] => none
  | (k', v) :: rest => if k' = k then some v else alookup k rest

/-- Occurrence count of a key in a list (Python `list.count`, and the
multiplicity with which a loop over the list visits the key). -/
def countK {κ : Type} [DecidableEq κ] (k : κ) : List κ → Nat
  | [] => 0
  | x :: rest => (if x = k then 1 else 0) + countK k rest

/-- Python `str.startswith`: the candidate prefix's code points lead the
string's code points. -/
def pyStartsWith (s pre : String) : Bool := pre.data.isPrefixOf s.data

/-- Python `str.endswith`. -/
def pyEndsWith (s suf : String) : Bool := suf.data.isSuffixOf s.data

/-- Python slicing `s[n:]` (by code points). -/
def strDrop (s : String) (n : Nat) : String := ⟨s.data.drop n⟩

/-- Python string `<=` (lexicographic on code points); used to model
`sorted((f1, f2))` and `list.sort()`. -/
def charListLe : List Char → List Char → Bool
  | [], _ => true
  | _ :: _, [] => false
  | a :: as, b :: bs => if a < b then true else if b < a then false else charListLe as bs

/-- Python string `<=` on `String`. -/
def strLe (a b : String) : Bool := charListLe a.data b.data

/-- `tuple(sorted((a, b)))` for two strings (Python `sorted` is stable,
so the pair keeps `(a, b)` when `a <= b`). -/
def sortPair (a b : String) : String × String :=
  if strLe a b then (a, b) else (b, a)

/-- Python `os.path.basename` for POSIX paths: everything after the last
`'/'` (the whole string when there is no `'/'`). -/
def pyBasename (p : String) : String :=
  ⟨(p.data.reverse.takeWhile (fun c => c ≠ '/')).reverse⟩

/-- The extension component of `os.path.splitext` (CPython `posixpath`):
the suffix from the last `'.'` of the final path segment, except that
leading dots of the segment never begin an extension (so `".gitignore"`
has no extension); empty when the segment has no qualifying dot. -/
def splitextExt (p : String) : String :=
  let b := (pyBasename p).data
  if (b.dropWhile (fun c => c = '.')).contains '.' then
    ⟨'.' :: (b.reverse.takeWhile (fun c => c ≠ '.')).reverse⟩
  else ""

/-- Python `str.lower` (ASCII letters; the extension table below is pure
ASCII, so this is faithful for every lookup the code performs). -/
def pyLower (s : String) : String := ⟨s.data.map Char.toLower⟩

/-- Python `str.isupper`: at least one cased character and every cased
character upper-case (cased = letter here). -/
def pyIsUpper (s : String) : Bool :=
  s.data.any (fun c => c.isAlpha) && s.data.all (fun c => !c.isAlpha || c.isUpper)

/-- The `mapping` dict of `get_file_type` in `src/api/index.py` (the
same table appears in `src/git_evolution.py`). -/
def extMapping : List (String × String) :=
  [(".py", "PYTHON"), (".js", "JS"), (".html", "HTML"), (".css", "CSS"),
   (".json", "JSON"), (".md", "DOCS"), (".txt", "TEXT"), (".c", "C"),
   (".cpp", "CPP"), (".h", "HEADER"), (".java", "JAVA"), (".go", "GO"),
   (".rs", "RUST"), (".ts", "TS"), (".jsx", "REACT"), (".tsx", "REACT")]

/-- `get_file_type` of `src/api/index.py`: extension via
`os.path.splitext(...)[1].lower()`; extension-less paths classify as
`CONFIG` when `os.path.basename(filepath).isupper()` else `FOLDER`;
otherwise `mapping.get(ext, 'OTHER')`. -/
def get_file_type (filepath : String) : String :=
  let ext := pyLower (splitextExt filepath)
  if ext = "" then
    if pyIsUpper (pyBasename filepath) then "CONFIG" else "FOLDER"
  else (alookup ext extMapping).getD "OTHER"

/-- `get_file_type` of `src/git_evolution.py`: no extension-less branch,
just `mapping.get(ext, 'OTHER')`. -/
def gitEv_get_file_type (filepath : String) : String :=
  (alookup (pyLower (splitextExt filepath)) extMapping).getD "OTHER"

/-- `prefix = subpath if subpath.endswith('/') else subpath + '/'`
(computed identically in the dry pass and in the main pass of
`analyze_history` in `src/api/index.py`). -/
def scopePre (subpath : String) : String :=
  if pyEndsWith subpath "/" then subpath else subpath ++ "/"

/-- Dry-pass filter of `analyze_history` (`src/api/index.py` lines
145-153): `not f.startswith('.git')`, then the scope filter when
`subpath` is truthy. -/
def dryFilter (subpath : String) (files : List String) : List String :=
  let files := files.filter (fun f => !(pyStartsWith f ".git"))
  if subpath ≠ "" then
    files.filter (fun f => pyStartsWith f (scopePre subpath) || f = subpath)
  else files

/-- Main-pass filter of `analyze_history` (`src/api/index.py` lines
164-169): `not f.startswith('.git/') and not f == '.git'`, then the
same scope filter. -/
def mainFilter (subpath : String) (files : List String) : List String :=
  let files := files.filter (fun f => !(pyStartsWith f ".git/") && f ≠ ".git")
  if subpath ≠ "" then
    files.filter (fun f => pyStartsWith f (scopePre subpath) || f = subpath)
  else files

/-- `len(all_files)` after the dry pass: the number of distinct paths
surviving `dryFilter` across all commits.  Python accumulates them in a
`set`; only the cardinality is used, so a deduplicated list is a
faithful model. -/
def allFilesCount (commits : List Commit) (subpath : String) : Nat :=
  ((commits.map (fun c => dryFilter subpath c.files)).flatten).dedup.length

/-- `USE_CLUSTERING = len(all_files) > 150`. -/
def useClustering (commits : List Commit) (subpath : String) : Bool :=
  decide (150 < allFilesCount commits subpath)

/-- The per-path rewrite of the clustering branch (`src/api/index.py`
lines 177-195): keep `f` when it equals `subpath`; otherwise take
`rel_path = f[len(subpath):]`, strip one leading `'/'`, and if `'/'`
occurs in `rel_path` replace `f` by `subpath + '/' + rel_path.split('/')[0]`
(just the first segment when `subpath` is empty), else keep `f`. -/
def clusterOf (subpath : String) (f : String) : String :=
  if f = subpath then f
  else
    let rel := strDrop f subpath.length
    let rel := if pyStartsWith rel "/" then strDrop rel 1 else rel
    if rel.data.contains '/' then
      let top : String := ⟨rel.data.takeWhile (fun c => c ≠ '/')⟩
      if subpath ≠ "" then subpath ++ "/" ++ top else top
    else f

/-- The per-commit file list the accounting loops of `analyze_history`
run over: the main-pass filter, then — when clustering is active — the
rewritten paths collected into a set (`clustered_files`).  Python's
`set` has no specified iteration order; `List.dedup` fixes one order,
and no accounted quantity below depends on it (couplings use sorted
pair keys, metadata updates commute across distinct keys). -/
def commitFiles (clustering : Bool) (subpath : String) (c : Commit) : List String :=
  let files := mainFilter subpath c.files
  if clustering then (files.map (clusterOf subpath)).dedup else files

/-- One iteration of the churn/metadata loop: insert `{size: 1,
createdAt, owner}` on first sight, else `size += 1`. -/
def updateSize : Metadata → String → Metadata
  | [], _ => []
  | (k, m) :: rest, f =>
    if k = f then (k, { m with size := m.size + 1 }) :: rest
    else (k, m) :: updateSize rest f

/-- `if f not in file_metadata: insert else size += 1`. -/
def addFileMeta (md : Metadata) (f : String) (ts : Int) (au : String) : Metadata :=
  match alookup f md with
  | none => md ++ [(f, { size := 1, createdAt := ts, owner := au })]
  | some _ => updateSize md f

/-- The whole churn loop of one commit. -/
def foldAdd (files : List String) (ts : Int) (au : String) (md : Metadata) : Metadata :=
  files.foldl (fun md f => addFileMeta md f ts au) md

/-- `couplings[pair] += 1` on a `Counter` (missing keys default to 0 and
a new key is appended in insertion order). -/
def bumpPair : Couplings → (String × String) → Couplings
  | [], p => [(p, 1)]
  | (q, n) :: rest, p =>
    if q = p then (q, n + 1) :: rest else (q, n) :: bumpPair rest p

/-- The double loop `for i ... for j in range(i+1, ...)` of
`src/api/index.py`, already canonicalized by `tuple(sorted((f1, f2)))`. -/
def pairsOf : List String → List (String × String)
  | [] => []
  | f :: rest => rest.map (sortPair f) ++ pairsOf rest

/-- Accumulator state of `analyze_history`. -/
structure AState where
  md : Metadata
  cps : Couplings
deriving Repr, DecidableEq

/-- The body of the main `for commit in commits` loop of
`analyze_history` in `src/api/index.py`: filter, skip when empty,
cluster when active, account churn and couplings. -/
def stepCommit (clustering : Bool) (subpath : String) (st : AState) (c : Commit) : AState :=
  let files := mainFilter subpath c.files
  if files.isEmpty then st
  else
    let files := if clustering then (files.map (clusterOf subpath)).dedup else files
    { md := foldAdd files c.timestamp c.author st.md,
      cps := if 1 < files.length then (pairsOf files).foldl bumpPair st.cps else st.cps }

/-- `analyze_history(commits, subpath="")` of `src/api/index.py`. -/
def analyze_history (commits : List Commit) (subpath : String) : Metadata × Couplings :=
  let clustering := useClustering commits subpath
  let st := commits.foldl (stepCommit clustering subpath) ⟨[], []⟩
  (st.md, st.cps)

/-- One node of the output graph of `generate_json` (`src/api/index.py`). -/
structure NodeOut where
  id : String
  label : String
  group : String
  type : String
  size : Nat
  owner : String
  createdAt : Int
deriving Repr, DecidableEq

/-- One link of the output graph. -/
structure LinkOut where
  source : String
  target : String
  weight : Nat
  createdAt : Int
deriving Repr, DecidableEq

/-- The output `{nodes, links}` structure. -/
structure GraphOut where
  nodes : List NodeOut
  links : List LinkOut
deriving Repr, DecidableEq

/-- One iteration of the links loop of `generate_json`
(`src/api/index.py` lines 276-287): emit the link only when both
endpoints are metadata keys and `weight >= 1`; `createdAt` is the max of
the endpoints' `createdAt`. -/
def linkStep (md : Metadata) (ls : List LinkOut) (e : (String × String) × Nat) : List LinkOut :=
  match alookup e.1.1 md, alookup e.1.2 md with
  | some ms, some mt =>
    if 1 ≤ e.2 then
      ls ++ [{ source := e.1.1, target := e.1.2, weight := e.2,
               createdAt := max ms.createdAt mt.createdAt }]
    else ls
  | _, _ => ls

/-- `generate_json(file_metadata, couplings)` of `src/api/index.py`. -/
def generate_json (file_metadata : Metadata) (couplings : Couplings) : GraphOut :=
  { nodes := file_metadata.map (fun fm =>
      { id := fm.1, label := fm.1, group := get_file_type fm.1,
        type := get_file_type fm.1, size := fm.2.size,
        owner := fm.2.owner, createdAt := fm.2.createdAt }),
    links := couplings.foldl (linkStep file_metadata) [] }

/-! ## The `src/git_evolution.py` variant of the analyzer -/

/-- One value of the `file_metadata` dict of `src/git_evolution.py`
(it stores the display fields inline). -/
structure GEMeta where
  id : String
  label : String
  type : String
  size : Nat
  createdAt : Int
  owner : String
deriving Repr, DecidableEq

/-- Insertion into a sorted list, by Python string order. -/
def insertSorted (x : String) : List String → List String
  | [] => [x]
  | y :: rest => if strLe x y then x :: y :: rest else y :: insertSorted x rest

/-- `list.sort()` result: a stable ascending sort by Python string
order (strings compare totally, so any correct sort agrees). -/
def insSort : List String → List String
  | [] => []
  | x :: rest => insertSorted x (insSort rest)

/-- `updateSize` for the `GEMeta` dict. -/
def geUpdateSize : List (String × GEMeta) → String → List (String × GEMeta)
  | [], _ => []
  | (k, m) :: rest, f =>
    if k = f then (k, { m with size := m.size + 1 }) :: rest
    else (k, m) :: geUpdateSize rest f

/-- The churn branch of `src/git_evolution.py` `analyze_history`. -/
def geAddMeta (md : List (String × GEMeta)) (f : String) (ts : Int) (au : String) :
    List (String × GEMeta) :=
  match alookup f md with
  | none => md ++ [(f, { id := f, label := pyBasename f,
                         type := gitEv_get_file_type f, size := 1,
                         createdAt := ts, owner := au })]
  | some _ => geUpdateSize md f

/-- The pair loop of `src/git_evolution.py`: `(files[i], files[j])`
with `i < j`, no re-sorting of the pair (the list was sorted in place). -/
def gePairsOf : List String → List (String × String)
  | [] => []
  | f :: rest => rest.map (fun g => (f, g)) ++ gePairsOf rest

/-- One loop iteration of `analyze_history` in `src/git_evolution.py`.
`files.sort()` mutates the commit record in place, so the state carries
the list of commit records as the caller sees them after the call
(third component). -/
def gitEv_stepCommit (st : (List (String × GEMeta) × Couplings) × List Commit)
    (c : Commit) : (List (String × GEMeta) × Couplings) × List Commit :=
  let files := insSort c.files
  let c' := { c with files := files }
  let md := files.foldl (fun md f => geAddMeta md f c.timestamp c.author) st.1.1
  let cps := if 1 < files.length then (gePairsOf files).foldl bumpPair st.1.2 else st.1.2
  ((md, cps), st.2 ++ [c'])

/-- `analyze_history(commits)` of `src/git_evolution.py`, together with
the post-call state of the input commit records (`files.sort()` is an
in-place mutation visible to the caller). -/
def gitEv_analyze_history (commits : List Commit) :
    (List (String × GEMeta) × Couplings) × List Commit :=
  commits.foldl gitEv_stepCommit (([], []), [])

/-! ## Claim-side (specification) definitions

These follow the spec's words, to be compared with the definitions
embedded from the source. -/

/-- Claim side (C1): the number of distinct commits whose processed
(scope-filtered, possibly clustered) file set contains the key. -/
def touchCount (commits : List Commit) (subpath : String) (key : String) : Nat :=
  (commits.filter
    (fun c => (commitFiles (useClustering commits subpath) subpath c).contains key)).length

/-- Total multiplicity with which the accounting loops visit `key`
across the processed per-commit file lists (fixed clustering flag). -/
def occKey (clustering : Bool) (subpath : String) (key : String) : List Commit → Nat
  | [] => 0
  | c :: rest => countK key (commitFiles clustering subpath c) + occKey clustering subpath key rest

/-- The first commit (in supplied order) whose processed file list
contains `key`, as `(timestamp, author)`. -/
def firstTouch (clustering : Bool) (subpath : String) (key : String) :
    List Commit → Option (Int × String)
  | [] => none
  | c :: rest =>
    if (commitFiles clustering subpath c).contains key then some (c.timestamp, c.author)
    else firstTouch clustering subpath key rest

/-- Claim side (C2): distinct count of paths across all commits under
the dry-pass predicate, written as one global filter over the bag of
all supplied paths. -/
def dryDistinctSpec (commits : List Commit) (subpath : String) : Nat :=
  (((commits.map (fun c => c.files)).flatten).filter
    (fun f => !(pyStartsWith f ".git") &&
      (subpath = "" || pyStartsWith f (scopePre subpath) || f = subpath))).dedup.length

/-- Claim side (C2): distinct count of paths under the main-pass
in-scope test (which keeps e.g. `.gitignore`). -/
def mainDistinctSpec (commits : List Commit) (subpath : String) : Nat :=
  (((commits.map (fun c => c.files)).flatten).filter
    (fun f => !(pyStartsWith f ".git/") && f ≠ ".git" &&
      (subpath = "" || pyStartsWith f (scopePre subpath) || f = subpath))).dedup.length

/-- Claim side (C4): the clustering rewrite as the spec words it —
strip the scope prefix and one leading separator to get the remainder;
a remainder with a separator becomes `scope + "/" + first segment`,
otherwise the path is kept; a path equal to the scope is kept. -/
def clusterRewriteSpec (scope : String) (f : String) : String :=
  if f = scope then f
  else
    let rem :=
      if pyStartsWith f (scope ++ "/") then strDrop f (scope.length + 1)
      else strDrop f scope.length
    if rem.data.contains '/' then
      scope ++ "/" ++ ⟨rem.data.takeWhile (fun c => c ≠ '/')⟩
    else f

/-- Claim side (C9): the classifier rule exactly as the claim words it —
an extension is the substring after the last `'.'` of the final path
segment (any dot counts, even a leading one); unmapped extensions give
`"OTHER"`; extension-less paths give `"CONFIG"`/`"FOLDER"`. -/
def getFileTypeClaim (p : String) : String :=
  let seg := (pyBasename p).data
  if seg.contains '.' then
    let e : String := ⟨(seg.reverse.takeWhile (fun c => c ≠ '.')).reverse⟩
    (alookup ("." ++ pyLower e) extMapping).getD "OTHER"
  else if pyIsUpper (pyBasename p) then "CONFIG" else "FOLDER"

/-- Claim side (C9, amended): the same rule with `os.path.splitext`'s
leading-dot exception: dots at the start of the final segment never
begin an extension, so dotfiles such as `".gitignore"` are
extension-less. -/
def getFileTypeAmended (p : String) : String :=
  let seg := (pyBasename p).data
  if (seg.dropWhile (fun c => c = '.')).contains '.' then
    let e : String := ⟨(seg.reverse.takeWhile (fun c => c ≠ '.')).reverse⟩
    (alookup ("." ++ pyLower e) extMapping).getD "OTHER"
  else if pyIsUpper (pyBasename p) then "CONFIG" else "FOLDER"

/-! ## Generic lemmas about the dict / counter model -/

theorem countK_eq_zero {κ : Type} [DecidableEq κ] (k : κ) (l : List κ) :
    countK k l = 0 ↔ k ∉ l := by
  induction l with
  | nil => simp [countK]
  | cons x rest ih =>
    simp only [countK, List.mem_cons, not_or]
    by_cases h : x = k
    · subst h
      simp
    · have h' : ¬ (k = x) := fun hh => h hh.symm
      simp [h, h', ih]

theorem countK_append {κ : Type} [DecidableEq κ] (k : κ) (l₁ l₂ : List κ) :
    countK k (l₁ ++ l₂) = countK k l₁ + countK k l₂ := by
  induction l₁ with
  | nil => simp [countK]
  | cons x rest ih =>
    simp [countK, ih]
    omega

theorem countK_le_one_of_nodup {κ : Type} [DecidableEq κ] (k : κ) {l : List κ}
    (h : l.Nodup) : countK k l ≤ 1 := by
  induction l with
  | nil => simp [countK]
  | cons x rest ih =>
    rcases List.nodup_cons.mp h with ⟨hx, hr⟩
    by_cases hk : x = k
    · subst hk
      have h0 : countK x rest = 0 := (countK_eq_zero x rest).mpr hx
      simp [countK, h0]
    · simpa [countK, hk] using ih hr

theorem alookup_isSome_of_mem {κ α : Type} [DecidableEq κ] {k : κ} {v : α}
    {l : List (κ × α)} (h : (k, v) ∈ l) : (alookup k l).isSome := by
  induction l with
  | nil => simp at h
  | cons e rest ih =>
    obtain ⟨k', v'⟩ := e
    rcases List.mem_cons.mp h with h | h
    · cases h
      simp [alookup]
    · by_cases he : k' = k
      · simp [alookup, he]
      · simp [alookup, he, ih h]

theorem alookup_some_mem {κ α : Type} [DecidableEq κ] {k : κ} {v : α}
    {l : List (κ × α)} (h : alookup k l = some v) : (k, v) ∈ l := by
  induction l with
  | nil => simp [alookup] at h
  | cons e rest ih =>
    obtain ⟨k', v'⟩ := e
    by_cases he : k' = k
    · subst he
      have hv : v' = v := by simpa [alookup] using h
      subst hv
      exact List.mem_cons_self _ _
    · have h' : alookup k rest = some v := by simpa [alookup, he] using h
      exact List.mem_cons_of_mem _ (ih h')

theorem contains_iff_mem {κ : Type} [DecidableEq κ] (k : κ) (l : List κ) :
    l.contains k = true ↔ k ∈ l := by
  simp [List.contains]

/-! ## Characterization of the metadata accumulation -/

theorem alookup_updateSize (md : Metadata) (f k : String) :
    alookup k (updateSize md f) =
      if f = k then (alookup k md).map (fun m => { m with size := m.size + 1 })
      else alookup k md := by
  induction md with
  | nil => simp [updateSize, alookup]
  | cons e rest ih =>
    obtain ⟨k', m⟩ := e
    by_cases hkf : k' = f
    · subst hkf
      by_cases hkk : k' = k <;> simp [updateSize, alookup, hkk]
    · by_cases hkk : k' = k
      · subst hkk
        have hfk : ¬ f = k' := fun h => hkf h.symm
        simp [updateSize, alookup, hkf, hfk]
      · simp [updateSize, alookup, hkf, hkk, ih]

theorem alookup_append_single {α : Type} (md : List (String × α)) (f k : String) (m : α) :
    alookup k (md ++ [(f, m)]) =
      match alookup k md with
      | some v => some v
      | none => if f = k then some m else none := by
  induction md with
  | nil => simp [alookup]
  | cons e rest ih =>
    obtain ⟨k', v'⟩ := e
    by_cases he : k' = k
    · simp [alookup, he]
    · simp [alookup, he, ih]

theorem alookup_addFileMeta (md : Metadata) (f k : String) (ts : Int) (au : String) :
    alookup k (addFileMeta md f ts au) =
      if f = k then
        match alookup f md with
        | none => some { size := 1, createdAt := ts, owner := au }
        | some m => some { size := m.size + 1, createdAt := m.createdAt, owner := m.owner }
      else alookup k md := by
  unfold addFileMeta
  cases hf : alookup f md with
  | none =>
    rw [alookup_append_single]
    by_cases hfk : f = k
    · subst hfk
      simp [hf]
    · simp only [hfk, if_false]
      cases alookup k md <;> rfl
  | some m =>
    rw [alookup_updateSize]
    by_cases hfk : f = k
    · subst hfk
      simp [hf]
    · simp [hfk]

theorem foldAdd_alookup (k : String) (ts : Int) (au : String) :
    ∀ (files : List String) (md : Metadata),
      alookup k (foldAdd files ts au md) =
        match alookup k md with
        | some m => some { size := m.size + countK k files,
                           createdAt := m.createdAt, owner := m.owner }
        | none =>
          if countK k files = 0 then none
          else some { size := countK k files, createdAt := ts, owner := au }
  | [], md => by
    cases h : alookup k md <;> simp [foldAdd, countK, h]
  | f :: fs, md => by
    have hstep : foldAdd (f :: fs) ts au md = foldAdd fs ts au (addFileMeta md f ts au) := rfl
    rw [hstep, foldAdd_alookup k ts au fs (addFileMeta md f ts au), alookup_addFileMeta]
    by_cases hfk : f = k
    · subst hfk
      cases h : alookup f md with
      | none => simp [countK, h]
      | some m => simp [countK, h, Nat.add_assoc]
    · simp [countK, hfk]

theorem pairsOf_short {l : List String} (h : l.length ≤ 1) : pairsOf l = [] :=
  match l, h with
  | [], _ => rfl
  | [_], _ => rfl

theorem stepCommit_md (cl : Bool) (sp : String) (st : AState) (c : Commit) :
    (stepCommit cl sp st c).md = foldAdd (commitFiles cl sp c) c.timestamp c.author st.md := by
  unfold stepCommit commitFiles
  by_cases h : (mainFilter sp c.files).isEmpty
  · have h0 : mainFilter sp c.files = [] := List.isEmpty_iff.mp h
    cases cl <;> simp [h, h0, foldAdd]
  · cases cl <;> simp [h]

theorem stepCommit_cps (cl : Bool) (sp : String) (st : AState) (c : Commit) :
    (stepCommit cl sp st c).cps = (pairsOf (commitFiles cl sp c)).foldl bumpPair st.cps := by
  unfold stepCommit commitFiles
  by_cases h : (mainFilter sp c.files).isEmpty
  · have h0 : mainFilter sp c.files = [] := List.isEmpty_iff.mp h
    cases cl <;> simp [h, h0, pairsOf]
  · cases cl <;>
      simp only [h, Bool.false_eq_true, if_false, if_true] <;>
      split <;>
      first
        | rfl
        | rw [pairsOf_short (by omega), List.foldl_nil]

theorem contains_eq_false_of_countK_zero {l : List String} {k : String}
    (h : countK k l = 0) : l.contains k = false := by
  have hm : k ∉ l := (countK_eq_zero k l).mp h
  rw [← Bool.not_eq_true, contains_iff_mem]
  exact hm

theorem contains_eq_true_of_countK_ne_zero {l : List String} {k : String}
    (h : countK k l ≠ 0) : l.contains k = true := by
  rw [contains_iff_mem]
  by_contra hm
  exact h ((countK_eq_zero k l).mpr hm)

/-- Master characterization of the metadata accumulator of
`analyze_history` over any commit fold tail. -/
theorem foldCommits_alookup (cl : Bool) (sp : String) (key : String) :
    ∀ (commits : List Commit) (st : AState),
      alookup key (commits.foldl (stepCommit cl sp) st).md =
        match alookup key st.md with
        | some m => some { size := m.size + occKey cl sp key commits,
                           createdAt := m.createdAt, owner := m.owner }
        | none =>
          match firstTouch cl sp key commits with
          | none => none
          | some (ts, au) =>
            some { size := occKey cl sp key commits, createdAt := ts, owner := au }
  | [], st => by
    cases h : alookup key st.md <;> simp [occKey, firstTouch, h]
  | c :: commits, st => by
    rw [List.foldl_cons, foldCommits_alookup cl sp key commits, stepCommit_md, foldAdd_alookup]
    cases h : alookup key st.md with
    | some m =>
      by_cases hn : countK key (commitFiles cl sp c) = 0 <;>
        simp [occKey, hn, Nat.add_assoc]
    | none =>
      by_cases hn : countK key (commitFiles cl sp c) = 0
      · have hm : key ∉ commitFiles cl sp c := (countK_eq_zero _ _).mp hn
        simp [occKey, firstTouch, hn, hm]
      · have hm : key ∈ commitFiles cl sp c := by
          by_contra hk
          exact hn ((countK_eq_zero _ _).mpr hk)
        simp [occKey, firstTouch, hn, hm]

/-- The metadata half of `analyze_history`, characterized: a key maps to
the `(timestamp, author)` of the first commit whose processed file list
contains it, with `size` the total multiplicity of the key across all
processed lists; keys never touched are absent. -/
theorem analyze_metadata_alookup (commits : List Commit) (sp key : String) :
    alookup key (analyze_history commits sp).1 =
      match firstTouch (useClustering commits sp) sp key commits with
      | none => none
      | some (ts, au) =>
        some { size := occKey (useClustering commits sp) sp key commits,
               createdAt := ts, owner := au } := by
  unfold analyze_history
  rw [foldCommits_alookup]
  simp [alookup]

theorem firstTouch_some_mem (cl : Bool) (sp : String) (key : String) :
    ∀ {commits : List Commit} {ts : Int} {au : String},
      firstTouch cl sp key commits = some (ts, au) →
      ∃ c ∈ commits, key ∈ commitFiles cl sp c ∧ ts = c.timestamp ∧ au = c.author
  | [], ts, au => by simp [firstTouch]
  | c :: commits, ts, au => by
    by_cases hc : (commitFiles cl sp c).contains key
    · intro h
      rw [firstTouch, if_pos hc] at h
      cases h
      exact ⟨c, List.mem_cons_self _ _, (contains_iff_mem _ _).mp hc, rfl, rfl⟩
    · intro h
      rw [firstTouch, if_neg hc] at h
      obtain ⟨c', hmem, hrest⟩ := firstTouch_some_mem cl sp key h
      exact ⟨c', List.mem_cons_of_mem _ hmem, hrest⟩

theorem occKey_pos_mem (cl : Bool) (sp : String) (key : String) :
    ∀ {commits : List Commit}, occKey cl sp key commits ≠ 0 →
      ∃ c ∈ commits, key ∈ commitFiles cl sp c
  | [], h => absurd rfl h
  | c :: commits, h => by
    by_cases hn : countK key (commitFiles cl sp c) = 0
    · rw [occKey, hn, Nat.zero_add] at h
      obtain ⟨c', hmem, hk⟩ := occKey_pos_mem cl sp key h
      exact ⟨c', List.mem_cons_of_mem _ hmem, hk⟩
    · refine ⟨c, List.mem_cons_self _ _, ?_⟩
      by_contra hk
      exact hn ((countK_eq_zero _ _).mpr hk)

/-! ## Characterization of the coupling accumulation -/

theorem alookup_bumpPair (cps : Couplings) (p q : String × String) :
    alookup q (bumpPair cps p) =
      if p = q then some ((alookup p cps).getD 0 + 1) else alookup q cps := by
  induction cps with
  | nil =>
    by_cases hpq : p = q
    · subst hpq
      simp [bumpPair, alookup]
    · simp [bumpPair, alookup, hpq]
  | cons e rest ih =>
    obtain ⟨r, n⟩ := e
    by_cases hrp : r = p
    · subst hrp
      by_cases hrq : r = q
      · subst hrq
        simp [bumpPair, alookup]
      · have hq : ¬ (r = q) := hrq
        simp [bumpPair, alookup, hq, fun h : r = q => hrq h]
    · by_cases hrq : r = q
      · subst hrq
        have hpq : ¬ (p = r) := fun h => hrp h.symm
        simp [bumpPair, alookup, hrp, hpq]
      · simp [bumpPair, alookup, hrp, hrq, ih]

theorem foldBump_alookup (q : String × String) :
    ∀ (pl : List (String × String)) (cps : Couplings),
      alookup q (pl.foldl bumpPair cps) =
        if countK q pl = 0 then alookup q cps
        else some ((alookup q cps).getD 0 + countK q pl)
  | [], cps => by simp [countK]
  | p :: pl, cps => by
    rw [List.foldl_cons, foldBump_alookup q pl (bumpPair cps p), alookup_bumpPair]
    by_cases hpq : p = q
    · subst hpq
      by_cases h0 : countK p pl = 0 <;> simp [countK, h0, Nat.add_assoc]
    · have hqp : ¬ (p = q) := hpq
      simp [countK, fun h : p = q => hpq h, hqp]

/-- Total multiplicity with which the coupling loop bumps the pair key
`p` across the processed per-commit lists. -/
def occPair (clustering : Bool) (subpath : String) (p : String × String) :
    List Commit → Nat
  | [] => 0
  | c :: rest =>
    countK p (pairsOf (commitFiles clustering subpath c)) + occPair clustering subpath p rest

/-- Master characterization of the coupling accumulator. -/
theorem foldCommits_cps_alookup (cl : Bool) (sp : String) (p : String × String) :
    ∀ (commits : List Commit) (st : AState),
      alookup p (commits.foldl (stepCommit cl sp) st).cps =
        if occPair cl sp p commits = 0 then alookup p st.cps
        else some ((alookup p st.cps).getD 0 + occPair cl sp p commits)
  | [], st => by simp [occPair]
  | c :: commits, st => by
    rw [List.foldl_cons]
    have hcps :
        (commits.foldl (stepCommit cl sp) (stepCommit cl sp st c)).cps =
          (commits.foldl (stepCommit cl sp) ⟨(stepCommit cl sp st c).md,
            (pairsOf (commitFiles cl sp c)).foldl bumpPair st.cps⟩).cps := by
      rw [← stepCommit_cps]
    rw [hcps, foldCommits_cps_alookup cl sp p commits, foldBump_alookup]
    by_cases h0 : countK p (pairsOf (commitFiles cl sp c)) = 0
    · simp [occPair, h0]
    · by_cases h1 : occPair cl sp p commits = 0 <;>
        simp [occPair, h0, h1, Nat.add_assoc]

/-- The coupling half of `analyze_history`, characterized. -/
theorem analyze_cps_alookup (commits : List Commit) (sp : String) (p : String × String) :
    alookup p (analyze_history commits sp).2 =
      if occPair (useClustering commits sp) sp p commits = 0 then none
      else some (occPair (useClustering commits sp) sp p commits) := by
  unfold analyze_history
  rw [foldCommits_cps_alookup]
  simp [alookup]

/-! ## Pair canonicalization lemmas -/

theorem charListLe_total : ∀ (as bs : List Char),
    charListLe as bs = true ∨ charListLe bs as = true
  | [], _ => Or.inl rfl
  | _ :: _, [] => Or.inr rfl
  | a :: as, b :: bs => by
    by_cases hab : a < b
    · left
      simp [charListLe, hab]
    · by_cases hba : b < a
      · right
        simp [charListLe, hba]
      · rcases charListLe_total as bs with h | h
        · left
          simp [charListLe, hab, hba, h]
        · right
          simp [charListLe, hba, hab, h]

theorem strLe_total (a b : String) : strLe a b = true ∨ strLe b a = true :=
  charListLe_total a.data b.data

theorem sortPair_sorted (a b : String) :
    strLe (sortPair a b).1 (sortPair a b).2 = true := by
  unfold sortPair
  by_cases h : strLe a b = true
  · simp [h]
  · rcases strLe_total a b with h' | h'
    · exact absurd h' h
    · simp [h, h']

theorem sortPair_cases (a b : String) : sortPair a b = (a, b) ∨ sortPair a b = (b, a) := by
  unfold sortPair
  by_cases h : strLe a b = true <;> simp [h]

theorem sortPair_eq_cases {a b c d : String} (h : sortPair a b = sortPair c d) :
    (a = c ∧ b = d) ∨ (a = d ∧ b = c) := by
  rcases sortPair_cases a b with h1 | h1 <;> rcases sortPair_cases c d with h2 | h2 <;>
    rw [h1, h2] at h <;> simp only [Prod.mk.injEq] at h
  · exact Or.inl h
  · exact Or.inr h
  · exact Or.inr ⟨h.2, h.1⟩
  · exact Or.inl ⟨h.2, h.1⟩

theorem mem_pairsOf {p : String × String} :
    ∀ {l : List String}, p ∈ pairsOf l → ∃ a ∈ l, ∃ b ∈ l, p = sortPair a b
  | [], h => by simp [pairsOf] at h
  | f :: rest, h => by
    rw [pairsOf] at h
    rcases List.mem_append.mp h with h | h
    · obtain ⟨g, hg, hp⟩ := List.mem_map.mp h
      exact ⟨f, List.mem_cons_self _ _, g, List.mem_cons_of_mem _ hg, hp.symm⟩
    · obtain ⟨a, ha, b, hb, hp⟩ := mem_pairsOf h
      exact ⟨a, List.mem_cons_of_mem _ ha, b, List.mem_cons_of_mem _ hb, hp⟩

theorem pairsOf_components_mem {p : String × String} {l : List String}
    (h : p ∈ pairsOf l) : p.1 ∈ l ∧ p.2 ∈ l := by
  obtain ⟨a, ha, b, hb, hp⟩ := mem_pairsOf h
  rcases sortPair_cases a b with hc | hc <;> rw [hp, hc] <;> exact ⟨by assumption, by assumption⟩

/-! ## Invariants tying couplings to metadata (for C10) -/

theorem mem_bumpPair :
    ∀ {cps : Couplings} {p : String × String} {e : (String × String) × Nat},
      e ∈ bumpPair cps p → e ∈ cps ∨ (e.1 = p ∧ 1 ≤ e.2)
  | [], p, e, h => by
    rw [bumpPair] at h
    rcases List.mem_singleton.mp h with rfl
    exact Or.inr ⟨rfl, le_refl 1⟩
  | (q, n) :: rest, p, e, h => by
    rw [bumpPair] at h
    by_cases hqp : q = p
    · rw [if_pos hqp] at h
      rcases List.mem_cons.mp h with rfl | h
      · exact Or.inr ⟨hqp, Nat.le_add_left 1 n⟩
      · exact Or.inl (List.mem_cons_of_mem _ h)
    · rw [if_neg hqp] at h
      rcases List.mem_cons.mp h with rfl | h
      · exact Or.inl (List.mem_cons_self _ _)
      · rcases mem_bumpPair h with h | h
        · exact Or.inl (List.mem_cons_of_mem _ h)
        · exact Or.inr h

theorem mem_foldBump :
    ∀ {pl : List (String × String)} {cps : Couplings} {e : (String × String) × Nat},
      e ∈ pl.foldl bumpPair cps → e ∈ cps ∨ (e.1 ∈ pl ∧ 1 ≤ e.2)
  | [], _, _, h => Or.inl h
  | p :: pl, cps, e, h => by
    rw [List.foldl_cons] at h
    rcases mem_foldBump h with h | h
    · rcases mem_bumpPair h with h | h
      · exact Or.inl h
      · exact Or.inr ⟨by rw [h.1]; exact List.mem_cons_self _ _, h.2⟩
    · exact Or.inr ⟨List.mem_cons_of_mem _ h.1, h.2⟩

theorem foldAdd_isSome_mono {k : String} {md : Metadata} {files : List String}
    {ts : Int} {au : String} (h : (alookup k md).isSome) :
    (alookup k (foldAdd files ts au md)).isSome := by
  rw [foldAdd_alookup]
  cases hm : alookup k md with
  | none => rw [hm] at h; simp at h
  | some m => simp

theorem foldAdd_isSome_of_mem {k : String} {files : List String}
    {ts : Int} {au : String} (md : Metadata) (h : k ∈ files) :
    (alookup k (foldAdd files ts au md)).isSome := by
  rw [foldAdd_alookup]
  have hc : countK k files ≠ 0 := fun h0 => ((countK_eq_zero _ _).mp h0) h
  cases hm : alookup k md with
  | none => simp [hc]
  | some m => simp

/-- The invariant of C10: every coupling entry has both of its pair
components present in the metadata map and a count of at least one. -/
def GoodSt (st : AState) : Prop :=
  ∀ e ∈ st.cps, (alookup e.1.1 st.md).isSome ∧ (alookup e.1.2 st.md).isSome ∧ 1 ≤ e.2

theorem stepCommit_good {cl : Bool} {sp : String} {st : AState} {c : Commit}
    (h : GoodSt st) : GoodSt (stepCommit cl sp st c) := by
  intro e he
  rw [stepCommit_cps] at he
  rw [stepCommit_md]
  rcases mem_foldBump he with hin | hnew
  · obtain ⟨h1, h2, h3⟩ := h e hin
    exact ⟨foldAdd_isSome_mono h1, foldAdd_isSome_mono h2, h3⟩
  · obtain ⟨hp, hw⟩ := hnew
    obtain ⟨m1, m2⟩ := pairsOf_components_mem hp
    exact ⟨foldAdd_isSome_of_mem _ m1, foldAdd_isSome_of_mem _ m2, hw⟩

theorem foldCommits_good (cl : Bool) (sp : String) :
    ∀ (commits : List Commit) {st : AState}, GoodSt st →
      GoodSt (commits.foldl (stepCommit cl sp) st)
  | [], _, h => h
  | _ :: commits, _, h => foldCommits_good cl sp commits (stepCommit_good h)

theorem analyze_good (commits : List Commit) (sp : String) :
    ∀ e ∈ (analyze_history commits sp).2,
      (alookup e.1.1 (analyze_history commits sp).1).isSome ∧
      (alookup e.1.2 (analyze_history commits sp).1).isSome ∧ 1 ≤ e.2 := by
  have h := @foldCommits_good (useClustering commits sp) sp commits ⟨[], []⟩
    (fun e he => by simp at he)
  exact h

/-! ## The links loop of `generate_json` -/

theorem linkStep_length {md : Metadata} {ls : List LinkOut} {e : (String × String) × Nat}
    (h1 : (alookup e.1.1 md).isSome) (h2 : (alookup e.1.2 md).isSome) (h3 : 1 ≤ e.2) :
    (linkStep md ls e).length = ls.length + 1 := by
  unfold linkStep
  cases hm1 : alookup e.1.1 md with
  | none => rw [hm1] at h1; simp at h1
  | some ms =>
    cases hm2 : alookup e.1.2 md with
    | none => rw [hm2] at h2; simp at h2
    | some mt => simp [h3]

theorem foldLink_length (md : Metadata) :
    ∀ (cps : Couplings) (ls : List LinkOut),
      (∀ e ∈ cps, (alookup e.1.1 md).isSome ∧ (alookup e.1.2 md).isSome ∧ 1 ≤ e.2) →
      (cps.foldl (linkStep md) ls).length = ls.length + cps.length
  | [], ls, _ => by simp
  | e :: cps, ls, h => by
    rw [List.foldl_cons]
    obtain ⟨h1, h2, h3⟩ := h e (List.mem_cons_self _ _)
    rw [foldLink_length md cps (linkStep md ls e)
      (fun e' he' => h e' (List.mem_cons_of_mem _ he')), linkStep_length h1 h2 h3]
    simp [Nat.add_assoc, Nat.add_comm 1 cps.length]

theorem mem_linkStep {md : Metadata} {ls : List LinkOut} {e : (String × String) × Nat}
    {l : LinkOut} (h : l ∈ linkStep md ls e) :
    l ∈ ls ∨ ∃ ms mt, alookup e.1.1 md = some ms ∧ alookup e.1.2 md = some mt ∧ 1 ≤ e.2 ∧
      l = { source := e.1.1, target := e.1.2, weight := e.2,
            createdAt := max ms.createdAt mt.createdAt } := by
  unfold linkStep at h
  split at h
  next ms mt hm1 hm2 =>
    split at h
    next hw =>
      rcases List.mem_append.mp h with h | h
      · exact Or.inl h
      · exact Or.inr ⟨ms, mt, hm1, hm2, hw, List.mem_singleton.mp h⟩
    next => exact Or.inl h
  next => exact Or.inl h

theorem mem_foldLink {md : Metadata} :
    ∀ {cps : Couplings} {ls : List LinkOut} {l : LinkOut},
      l ∈ cps.foldl (linkStep md) ls →
      l ∈ ls ∨ ∃ e ∈ cps, ∃ ms mt,
        alookup e.1.1 md = some ms ∧ alookup e.1.2 md = some mt ∧ 1 ≤ e.2 ∧
        l = { source := e.1.1, target := e.1.2, weight := e.2,
              createdAt := max ms.createdAt mt.createdAt }
  | [], _, _, h => Or.inl h
  | e :: cps, ls, l, h => by
    rw [List.foldl_cons] at h
    rcases mem_foldLink h with h | h
    · rcases mem_linkStep h with h | h
      · exact Or.inl h
      · exact Or.inr ⟨e, List.mem_cons_self _ _, h⟩
    · obtain ⟨e', he', rest⟩ := h
      exact Or.inr ⟨e', List.mem_cons_of_mem _ he', rest⟩

theorem occPair_pos_mem (cl : Bool) (sp : String) (p : String × String) :
    ∀ {commits : List Commit}, occPair cl sp p commits ≠ 0 →
      ∃ c ∈ commits, countK p (pairsOf (commitFiles cl sp c)) ≠ 0
  | [], h => absurd rfl h
  | c :: commits, h => by
    by_cases hn : countK p (pairsOf (commitFiles cl sp c)) = 0
    · rw [occPair, hn, Nat.zero_add] at h
      obtain ⟨c', hmem, hk⟩ := occPair_pos_mem cl sp p h
      exact ⟨c', List.mem_cons_of_mem _ hmem, hk⟩
    · exact ⟨c, List.mem_cons_self _ _, hn⟩

theorem pairsOf_sorted {p : String × String} {l : List String}
    (h : p ∈ pairsOf l) : strLe p.1 p.2 = true := by
  obtain ⟨a, _, b, _, hp⟩ := mem_pairsOf h
  rw [hp]
  exact sortPair_sorted a b

theorem mem_pairsOf_nodup {p : String × String} :
    ∀ {l : List String}, l.Nodup → p ∈ pairsOf l → p.1 ≠ p.2
  | [], _, h => by simp [pairsOf] at h
  | f :: rest, hnd, h => by
    rcases List.nodup_cons.mp hnd with ⟨hf, hr⟩
    rw [pairsOf] at h
    rcases List.mem_append.mp h with h | h
    · obtain ⟨g, hg, hp⟩ := List.mem_map.mp h
      have hfg : f ≠ g := fun he => hf (he ▸ hg)
      rcases sortPair_cases f g with hc | hc <;> rw [← hp, hc]
      · exact hfg
      · exact hfg.symm
    · exact mem_pairsOf_nodup hr h

/-! ## Claim theorems -/

/-- Concrete input shared by the C1 and C3 counterexamples: a single
commit whose file list contains the same path twice. -/
def dupCommit : Commit :=
  { hash := "h", timestamp := 7, author := "alice", subject := "s",
    files := ["x.py", "x.py"] }

/-- C1, counterexample: it is not true that every metadata entry's
`size` equals the number of distinct commits whose processed file set
contains the key — the commit `[x.py, x.py]` produces `size = 2` while
only one (distinct) commit touches `x.py`. -/
theorem c1_counterexample :
    ¬ (∀ (commits : List Commit) (subpath key : String) (m : FileMeta),
        alookup key (analyze_history commits subpath).1 = some m →
        m.size = touchCount commits subpath key) := by
  intro h
  have h1 := h [dupCommit] "" "x.py"
    { size := 2, createdAt := 7, owner := "alice" } (by decide)
  have h2 : touchCount [dupCommit] "" "x.py" = 1 := by decide
  rw [h2] at h1
  exact absurd h1 (by decide)

/-- C1, amended: every metadata entry's `size` equals the total
multiplicity with which the key occurs across the per-commit processed
file lists (when clustering is active each commit contributes at most
once per key because the rewritten list is deduplicated; without
clustering a path listed twice in one commit is counted twice). -/
theorem c1_amended (commits : List Commit) (subpath key : String) (m : FileMeta)
    (h : alookup key (analyze_history commits subpath).1 = some m) :
    m.size = occKey (useClustering commits subpath) subpath key commits := by
  rw [analyze_metadata_alookup] at h
  cases hf : firstTouch (useClustering commits subpath) subpath key commits with
  | none => rw [hf] at h; cases h
  | some p =>
    obtain ⟨ts, au⟩ := p
    rw [hf] at h
    cases h
    rfl

/-- Witness for `c1_amended` at the duplicate-path input. -/
theorem c1_amended_witness :
    FileMeta.size { size := 2, createdAt := 7, owner := "alice" } =
      occKey (useClustering [dupCommit] "") "" "x.py" [dupCommit] :=
  c1_amended [dupCommit] "" "x.py"
    { size := 2, createdAt := 7, owner := "alice" } (by decide)

/-- C3, counterexample: a self-coupling key `(P, P)` can exist — the
commit `[x.py, x.py]` creates the coupling key `(x.py, x.py)`. -/
theorem c3_counterexample :
    ¬ (∀ (commits : List Commit) (subpath : String) (p : String × String),
        (alookup p (analyze_history commits subpath).2).isSome → p.1 ≠ p.2) := by
  intro h
  exact h [dupCommit] "" ("x.py", "x.py") (by decide) rfl

/-- C3, amended: every coupling key is stored in canonical sorted order
(so the unordered pair has exactly one key), and an entry exists only if
its two components co-occur in at least one commit's processed in-scope
file set; moreover if no commit's processed file list repeats a path,
the two components are distinct (a repeated path is exactly what creates
a self-coupling key). -/
theorem c3_amended (commits : List Commit) (subpath : String) (p : String × String)
    (n : Nat) (h : alookup p (analyze_history commits subpath).2 = some n) :
    strLe p.1 p.2 = true ∧
    (∃ c ∈ commits, p.1 ∈ commitFiles (useClustering commits subpath) subpath c ∧
      p.2 ∈ commitFiles (useClustering commits subpath) subpath c) ∧
    ((∀ c ∈ commits, (commitFiles (useClustering commits subpath) subpath c).Nodup) →
      p.1 ≠ p.2) := by
  rw [analyze_cps_alookup] at h
  by_cases h0 : occPair (useClustering commits subpath) subpath p commits = 0
  · rw [if_pos h0] at h
    cases h
  · obtain ⟨c, hc, hcount⟩ := occPair_pos_mem _ _ _ h0
    have hp : p ∈ pairsOf (commitFiles (useClustering commits subpath) subpath c) := by
      by_contra hk
      exact hcount ((countK_eq_zero _ _).mpr hk)
    obtain ⟨h1, h2⟩ := pairsOf_components_mem hp
    refine ⟨pairsOf_sorted hp, ⟨c, hc, h1, h2⟩, fun hnd => ?_⟩
    exact mem_pairsOf_nodup (hnd c hc) hp

/-- Witness for `c3_amended`: the spec's own worked example. -/
def specCommits : List Commit :=
  [{ hash := "h1", timestamp := 1, author := "alice", subject := "s1",
     files := ["a.py", "b.py"] },
   { hash := "h2", timestamp := 2, author := "bob", subject := "s2",
     files := ["b.py", "c.py"] },
   { hash := "h3", timestamp := 3, author := "carol", subject := "s3",
     files := ["a.py"] }]

theorem c3_amended_witness :
    strLe "a.py" "b.py" = true ∧
    (∃ c ∈ specCommits, "a.py" ∈ commitFiles (useClustering specCommits "") "" c ∧
      "b.py" ∈ commitFiles (useClustering specCommits "") "" c) ∧
    ((∀ c ∈ specCommits, (commitFiles (useClustering specCommits "") "" c).Nodup) →
      "a.py" ≠ "b.py") :=
  c3_amended specCommits "" ("a.py", "b.py") 1 (by decide)

/-- C7: for every key present in the metadata returned by
`analyze_history`, `createdAt` and `owner` are exactly the timestamp and
author of the first supplied commit whose processed file set contains
the key (so they are never revised by later commits). -/
theorem c7_created_at_owner (commits : List Commit) (subpath key : String) (m : FileMeta)
    (h : alookup key (analyze_history commits subpath).1 = some m) :
    firstTouch (useClustering commits subpath) subpath key commits =
      some (m.createdAt, m.owner) := by
  rw [analyze_metadata_alookup] at h
  cases hf : firstTouch (useClustering commits subpath) subpath key commits with
  | none => rw [hf] at h; cases h
  | some p =>
    obtain ⟨ts, au⟩ := p
    rw [hf] at h
    cases h
    rfl

/-- Witness for `c7_created_at_owner`: in the spec's worked example,
`c.py` is first touched by the second commit (timestamp 2, author bob). -/
theorem c7_witness :
    firstTouch (useClustering specCommits "") "" "c.py" specCommits =
      some (FileMeta.createdAt { size := 1, createdAt := 2, owner := "bob" },
            FileMeta.owner { size := 1, createdAt := 2, owner := "bob" }) :=
  c7_created_at_owner specCommits "" "c.py"
    { size := 1, createdAt := 2, owner := "bob" } (by decide)

/-- C6: every link emitted by `generate_json` has both endpoints present
in the metadata map, carries the weight of a coupling entry for exactly
that source/target pair, and is stamped with the later of its two
endpoints' `createdAt`; coupling entries with a missing endpoint are
dropped silently (the loop is total and simply emits nothing for them). -/
theorem c6_links (md : Metadata) (cps : Couplings) (l : LinkOut)
    (h : l ∈ (generate_json md cps).links) :
    ∃ ms mt, alookup l.source md = some ms ∧ alookup l.target md = some mt ∧
      ((l.source, l.target), l.weight) ∈ cps ∧
      l.createdAt = max ms.createdAt mt.createdAt := by
  have h' : l ∈ cps.foldl (linkStep md) [] := by
    simpa [generate_json] using h
  rcases mem_foldLink h' with h'' | h''
  · cases h''
  · obtain ⟨e, he, ms, mt, hm1, hm2, _, hl⟩ := h''
    subst hl
    exact ⟨ms, mt, hm1, hm2, by simpa using he, rfl⟩

/-- Concrete inputs for the `c6_links` witness. -/
def wMd : Metadata :=
  [("a.py", { size := 2, createdAt := 1, owner := "alice" }),
   ("b.py", { size := 1, createdAt := 2, owner := "bob" })]

def wCps : Couplings := [(("a.py", "b.py"), 1), (("a.py", "zzz"), 3)]

theorem c6_witness :
    ∃ ms mt, alookup (LinkOut.source ⟨"a.py", "b.py", 1, 2⟩) wMd = some ms ∧
      alookup (LinkOut.target ⟨"a.py", "b.py", 1, 2⟩) wMd = some mt ∧
      ((LinkOut.source ⟨"a.py", "b.py", 1, 2⟩, LinkOut.target ⟨"a.py", "b.py", 1, 2⟩),
        LinkOut.weight ⟨"a.py", "b.py", 1, 2⟩) ∈ wCps ∧
      LinkOut.createdAt ⟨"a.py", "b.py", 1, 2⟩ = max ms.createdAt mt.createdAt :=
  c6_links wMd wCps ⟨"a.py", "b.py", 1, 2⟩ (by decide)

/-- C10: for the pair of maps produced by one `analyze_history` call,
every coupling key's two components are metadata keys and every count is
at least 1, so `generate_json` emits exactly one link per coupling entry
(its both-endpoints guard and its `weight >= 1` guard never drop any). -/
theorem c10_links_complete (commits : List Commit) (subpath : String) :
    (∀ (p : String × String) (n : Nat),
      alookup p (analyze_history commits subpath).2 = some n →
      (alookup p.1 (analyze_history commits subpath).1).isSome ∧
      (alookup p.2 (analyze_history commits subpath).1).isSome ∧ 1 ≤ n) ∧
    (generate_json (analyze_history commits subpath).1
        (analyze_history commits subpath).2).links.length =
      (analyze_history commits subpath).2.length := by
  constructor
  · intro p n h
    exact analyze_good commits subpath (p, n) (alookup_some_mem h)
  · have h := foldLink_length (analyze_history commits subpath).1
      (analyze_history commits subpath).2 [] (analyze_good commits subpath)
    simpa [generate_json] using h

/-- Witness for `c10_links_complete` at the spec's worked example. -/
theorem c10_witness :
    ((alookup "a.py" (analyze_history specCommits "").1).isSome ∧
      (alookup "b.py" (analyze_history specCommits "").1).isSome ∧ 1 ≤ 1) ∧
    (generate_json (analyze_history specCommits "").1
        (analyze_history specCommits "").2).links.length =
      (analyze_history specCommits "").2.length :=
  ⟨(c10_links_complete specCommits "").1 ("a.py", "b.py") 1 (by decide),
   (c10_links_complete specCommits "").2⟩

/-! ## C2: the clustering threshold -/

theorem filterFilter {α : Type} (p q : α → Bool) (l : List α) :
    (l.filter p).filter q = l.filter (fun a => p a && q a) := by
  induction l with
  | nil => rfl
  | cons x rest ih => by_cases hp : p x <;> by_cases hq : q x <;> simp [hp, hq, ih]

/-- The dry-pass filter as one predicate. -/
theorem dryFilter_eq (sp : String) (files : List String) :
    dryFilter sp files = files.filter (fun f =>
      !(pyStartsWith f ".git") &&
        (decide (sp = "") || pyStartsWith f (scopePre sp) || decide (f = sp))) := by
  unfold dryFilter
  by_cases hsp : sp = ""
  · subst hsp
    simp
  · rw [if_pos hsp, filterFilter]
    exact List.filter_congr (fun f _ => by simp [hsp])

/-- The main-pass filter as one predicate. -/
theorem mainFilter_eq (sp : String) (files : List String) :
    mainFilter sp files = files.filter (fun f =>
      (!(pyStartsWith f ".git/") && decide (f ≠ ".git")) &&
        (decide (sp = "") || pyStartsWith f (scopePre sp) || decide (f = sp))) := by
  unfold mainFilter
  by_cases hsp : sp = ""
  · subst hsp
    simp
  · rw [if_pos hsp, filterFilter]
    exact List.filter_congr (fun f _ => by simp [hsp])

theorem flatten_filter {α : Type} (p : α → Bool) :
    ∀ (L : List (List α)), L.flatten.filter p = (L.map (List.filter p)).flatten
  | [] => rfl
  | l :: L => by
    simp [List.filter_append, flatten_filter p L]

/-- C2, amended: clustering activates exactly when the number of
distinct paths across all supplied commits that pass the scope test and
do not *start with the string* `".git"` exceeds 150.  (This dry-pass
predicate also discards `.gitignore`, `.github/...`, etc., which the
main pass keeps — that is the only difference from the claim as
stated.) -/
theorem c2_amended (commits : List Commit) (subpath : String) :
    useClustering commits subpath = decide (150 < dryDistinctSpec commits subpath) := by
  unfold useClustering allFilesCount dryDistinctSpec
  rw [flatten_filter, List.map_map]
  simp only [dryFilter_eq]
  rfl

/-- Concrete input for the C2 counterexample: one commit with 151
distinct in-scope paths, one of which (`.gitignore`) the dry pass drops
but the main pass keeps. -/
def cexCommit2 : Commit :=
  { hash := "h", timestamp := 1, author := "a", subject := "s",
    files := ".gitignore" :: (List.range 150).map (fun n => "f" ++ toString n) }

set_option maxRecDepth 100000 in
/-- C2, counterexample: with 151 distinct main-pass in-scope paths of
which one starts with `".git"`, the main-pass distinct count exceeds 150
but clustering does not activate. -/
theorem c2_counterexample :
    ¬ (useClustering [cexCommit2] "" = true ↔
        150 < mainDistinctSpec [cexCommit2] "") := by
  decide

/-! ## C9: the file-type classifier -/

/-- C9, counterexample: the classifier does not treat every "substring
after the last dot of the final segment" as an extension — for
`".gitignore"` the code yields `"FOLDER"` (no extension, per
`os.path.splitext`'s leading-dot rule) while the claimed rule yields
`"OTHER"` (extension `gitignore`, unmapped). -/
theorem c9_counterexample : ¬ (∀ p, get_file_type p = getFileTypeClaim p) := by
  intro h
  exact absurd (h ".gitignore") (by decide)

/-- C9, amended: the classifier is total and equals the claimed rule
amended with `os.path.splitext`'s exception: dots at the start of a
final path segment never begin an extension (so dotfiles classify as
extension-less). -/
theorem c9_amended_eq (p : String) : get_file_type p = getFileTypeAmended p := by
  unfold get_file_type getFileTypeAmended splitextExt
  by_cases h : ((pyBasename p).data.dropWhile (fun c => c = '.')).contains '.'
  · simp only [h, if_true]
    have hne : pyLower
        ⟨'.' :: ((pyBasename p).data.reverse.takeWhile (fun c => c ≠ '.')).reverse⟩ ≠ "" := by
      simp [pyLower, String.ext_iff]
    rw [if_neg hne]
    have harg : pyLower
        ⟨'.' :: ((pyBasename p).data.reverse.takeWhile (fun c => c ≠ '.')).reverse⟩ =
        "." ++ pyLower ⟨((pyBasename p).data.reverse.takeWhile (fun c => c ≠ '.')).reverse⟩ := by
      simp [pyLower, String.ext_iff]
    rw [harg]
  · simp only [h, if_false]
    simp [pyLower]

/-! ## C8: purity of the analyzers with respect to their input -/

theorem insertSorted_perm (x : String) :
    ∀ (l : List String), List.Perm (insertSorted x l) (x :: l)
  | [] => List.Perm.refl _
  | y :: rest => by
    rw [insertSorted]
    by_cases h : strLe x y
    · rw [if_pos h]
    · rw [if_neg h]
      exact ((insertSorted_perm x rest).cons y).trans (List.Perm.swap x y rest)

theorem insSort_perm : ∀ (l : List String), List.Perm (insSort l) l
  | [] => List.Perm.refl _
  | x :: rest => (insertSorted_perm x (insSort rest)).trans ((insSort_perm rest).cons x)

theorem gitEv_post :
    ∀ (commits : List Commit) (st : (List (String × GEMeta) × Couplings) × List Commit),
      (commits.foldl gitEv_stepCommit st).2 =
        st.2 ++ commits.map (fun c => { c with files := insSort c.files })
  | [], st => by simp
  | c :: commits, st => by
    rw [List.foldl_cons, gitEv_post commits]
    simp [gitEv_stepCommit]

/-- Concrete input for the C8 counterexample and witness: a commit
whose file list is not already sorted. -/
def mutCommit : Commit :=
  { hash := "h", timestamp := 1, author := "a", subject := "s", files := ["b", "a"] }

/-- C8, counterexample: `analyze_history` of `src/git_evolution.py`
mutates its input — after the call the commit record's file list is
`["a", "b"]`, not the supplied `["b", "a"]`. -/
theorem c8_counterexample : (gitEv_analyze_history [mutCommit]).2 ≠ [mutCommit] := by
  decide

/-- C8, amended: the `src/api/index.py` analyzer reads its input only
(it is a function of the commit list), but the `src/git_evolution.py`
analyzer sorts each commit's file list in place: after the call each
record holds the sorted permutation of its original list — contents are
preserved as a multiset, order is not. -/
theorem c8_amended (commits : List Commit) :
    (gitEv_analyze_history commits).2 =
      commits.map (fun c => { c with files := insSort c.files }) ∧
    ∀ c ∈ commits, List.Perm (insSort c.files) c.files := by
  constructor
  · have h := gitEv_post commits (([], []), [])
    simpa [gitEv_analyze_history] using h
  · intro c _
    exact insSort_perm c.files

/-- Witness for `c8_amended` at the unsorted-input commit. -/
theorem c8_amended_witness :
    ((gitEv_analyze_history [mutCommit]).2 =
      [mutCommit].map (fun c => { c with files := insSort c.files })) ∧
    List.Perm (insSort mutCommit.files) mutCommit.files :=
  ⟨(c8_amended [mutCommit]).1, (c8_amended [mutCommit]).2 mutCommit (by decide)⟩

/-! ## C4: the clustering rewrite -/

theorem pyStartsWith_iff (s pre : String) :
    pyStartsWith s pre = true ↔ pre.data <+: s.data :=
  List.isPrefixOf_iff_prefix

theorem scopePre_eq {sp : String} (hn : pyEndsWith sp "/" = false) :
    scopePre sp = sp ++ "/" := by
  unfold scopePre
  rw [hn]
  simp

theorem countK_ne_zero_mem {κ : Type} [DecidableEq κ] {k : κ} {l : List κ}
    (h : countK k l ≠ 0) : k ∈ l := by
  by_contra hm
  exact h ((countK_eq_zero _ _).mpr hm)

theorem clusterOf_eq_spec {sp f : String} (hs : sp ≠ "")
    (hin : pyStartsWith f (sp ++ "/") = true ∨ f = sp) :
    clusterOf sp f = clusterRewriteSpec sp f := by
  by_cases hf : f = sp
  · subst hf
    simp [clusterOf, clusterRewriteSpec]
  · replace hin : pyStartsWith f (sp ++ "/") = true := hin.resolve_right hf
    obtain ⟨t, ht⟩ := (pyStartsWith_iff f (sp ++ "/")).mp hin
    have hdata : f.data = sp.data ++ '/' :: t := by
      rw [← ht]
      simp [show (sp ++ "/").data = sp.data ++ ['/'] from rfl]
    have hdrop1 : f.data.drop sp.length = '/' :: t := by
      rw [hdata]
      exact List.drop_left sp.data ('/' :: t)
    have hdrop2 : f.data.drop (sp.length + 1) = t := by
      rw [hdata, show sp.data ++ '/' :: t = (sp.data ++ ['/']) ++ t by simp]
      have h5 := List.drop_left (sp.data ++ ['/']) t
      simpa using h5
    unfold clusterOf clusterRewriteSpec
    rw [if_neg hf, if_neg hf, if_pos hin]
    simp only [strDrop, hdrop1, hdrop2, if_pos hs]
    simp [pyStartsWith, List.isPrefixOf, show ("/").data = ['/'] from rfl]

theorem mem_mainFilter (sp : String) (files : List String) (f : String)
    (h : f ∈ mainFilter sp files) :
    f ∈ files ∧ pyStartsWith f ".git/" = false ∧ f ≠ ".git" ∧
      (sp ≠ "" → pyStartsWith f (scopePre sp) = true ∨ f = sp) := by
  rw [mainFilter_eq] at h
  obtain ⟨hmem, hp⟩ := List.mem_filter.mp h
  simp only [Bool.and_eq_true, Bool.or_eq_true, decide_eq_true_eq,
    Bool.not_eq_true'] at hp
  obtain ⟨⟨h1, h2⟩, h3⟩ := hp
  refine ⟨hmem, h1, h2, fun hs => ?_⟩
  rcases h3 with (h3 | h3) | h3
  · exact absurd h3 hs
  · exact Or.inl h3
  · exact Or.inr h3

theorem countK_pairsOf_le_one :
    ∀ {l : List String}, l.Nodup → ∀ (p : String × String), countK p (pairsOf l) ≤ 1
  | [], _, p => by simp [pairsOf, countK]
  | f :: rest, hnd, p => by
    rcases List.nodup_cons.mp hnd with ⟨hf, hr⟩
    rw [pairsOf, countK_append]
    by_cases hc1 : countK p (rest.map (sortPair f)) = 0
    · have hrec := countK_pairsOf_le_one hr p
      omega
    · have hp : p ∈ rest.map (sortPair f) := countK_ne_zero_mem hc1
      have hc2 : countK p (pairsOf rest) = 0 := by
        rw [countK_eq_zero]
        intro hmem
        obtain ⟨a, ha, b, hb, hab⟩ := mem_pairsOf hmem
        obtain ⟨g, hg, hfg⟩ := List.mem_map.mp hp
        rw [hab] at hfg
        rcases sortPair_eq_cases hfg with ⟨h1, _⟩ | ⟨h1, _⟩
        · exact hf (by rw [h1]; exact ha)
        · exact hf (by rw [h1]; exact hb)
      have hle1 : countK p (rest.map (sortPair f)) ≤ 1 := by
        apply countK_le_one_of_nodup
        apply hr.map_on
        intro x hx y hy hxy
        rcases sortPair_eq_cases hxy with ⟨_, h2⟩ | ⟨h1, h2⟩
        · exact h2
        · exact absurd (show f ∈ rest by rw [h1]; exact hy) hf
      omega

/-- C4: when clustering is active and a (normalized, nonempty) scope is
given, the per-commit processed list is exactly the deduplicated set of
the spec's rewrite (keep the scope itself; collapse a path whose
remainder relative to the scope has a separator to
`scope + "/" + first segment`; keep direct children), and it is
duplicate-free, so one commit contributes at most one size increment
per key and at most one coupling increment per pair. -/
theorem c4_clustering (commits : List Commit) (subpath : String) (c : Commit)
    (hcl : useClustering commits subpath = true)
    (hs : subpath ≠ "") (hn : pyEndsWith subpath "/" = false) :
    commitFiles (useClustering commits subpath) subpath c =
      ((mainFilter subpath c.files).map (clusterRewriteSpec subpath)).dedup ∧
    (commitFiles (useClustering commits subpath) subpath c).Nodup ∧
    ∀ p : String × String,
      countK p (pairsOf (commitFiles (useClustering commits subpath) subpath c)) ≤ 1 := by
  have heq : commitFiles (useClustering commits subpath) subpath c =
      ((mainFilter subpath c.files).map (clusterRewriteSpec subpath)).dedup := by
    rw [hcl]
    show ((mainFilter subpath c.files).map (clusterOf subpath)).dedup = _
    congr 1
    apply List.map_eq_map_iff.mpr
    intro f hfm
    obtain ⟨_, _, _, hscope⟩ := mem_mainFilter subpath c.files f hfm
    have hin := hscope hs
    rw [scopePre_eq hn] at hin
    exact clusterOf_eq_spec hs hin
  refine ⟨heq, ?_, ?_⟩
  · rw [heq]
    exact List.nodup_dedup _
  · intro p
    rw [heq]
    exact countK_pairsOf_le_one (List.nodup_dedup _) p

/-- Concrete inputs for the `c4_clustering` witness: 151 distinct
in-scope paths activate clustering; the probed commit touches two files
of `src/ui`, one direct child, one out-of-scope file and a duplicate. -/
def bigCommit : Commit :=
  { hash := "big", timestamp := 1, author := "ann", subject := "s",
    files := (List.range 151).map (fun n => "src/" ++ toString n) }

def smallCommit : Commit :=
  { hash := "h2", timestamp := 2, author := "bob", subject := "s",
    files := ["src/ui/A.tsx", "src/ui/B.tsx", "src/x.py", "lib/z", "src/ui/A.tsx"] }

def commits4 : List Commit := [bigCommit, smallCommit]

set_option maxRecDepth 100000 in
/-- Witness for `c4_clustering` on a clustering-active input. -/
theorem c4_witness :
    (commitFiles (useClustering commits4 "src") "src" smallCommit =
      ((mainFilter "src" smallCommit.files).map (clusterRewriteSpec "src")).dedup) ∧
    (commitFiles (useClustering commits4 "src") "src" smallCommit).Nodup ∧
    countK ("src/ui", "src/x.py")
      (pairsOf (commitFiles (useClustering commits4 "src") "src" smallCommit)) ≤ 1 := by
  have h := c4_clustering commits4 "src" smallCommit (by decide) (by decide) (by decide)
  exact ⟨h.1, h.2.1, h.2.2 ("src/ui", "src/x.py")⟩

/-! ## C5: scope and metadata-directory invariants -/

theorem pyStartsWith_append_left (a b : String) : pyStartsWith (a ++ b) a = true := by
  rw [pyStartsWith_iff]
  exact ⟨b.data, rfl⟩

/-- A list followed by `'/'` and anything can only equal
`".git/".data` when the list is `".git".data`. -/
theorem append_slash_eq : ∀ {l t : List Char},
    l ++ '/' :: t = ['.', 'g', 'i', 't', '/'] → l = ['.', 'g', 'i', 't'] ∧ t = []
  | [], t, h => by
    injection h with h1 _
    exact absurd h1 (by decide)
  | [a], t, h => by
    injection h with _ h2
    injection h2 with h3 _
    exact absurd h3 (by decide)
  | [a, b], t, h => by
    injection h with _ h2
    injection h2 with _ h3
    injection h3 with h4 _
    exact absurd h4 (by decide)
  | [a, b, c'], t, h => by
    injection h with _ h2
    injection h2 with _ h3
    injection h3 with _ h4
    injection h4 with h5 _
    exact absurd h5 (by decide)
  | [a, b, c', d], t, h => by
    injection h with h1 h2
    injection h2 with h3 h4
    injection h4 with h5 h6
    injection h6 with h7 h8
    injection h8 with _ h9
    subst h1
    subst h3
    subst h5
    subst h7
    exact ⟨rfl, h9⟩
  | a :: b :: c' :: d :: e :: rest, t, h => by
    have hlen := congrArg List.length h
    simp at hlen

theorem clusterOf_in_scope {sp g : String} (hs : sp ≠ "")
    (hg : pyStartsWith g (sp ++ "/") = true ∨ g = sp) :
    clusterOf sp g = sp ∨ pyStartsWith (clusterOf sp g) (sp ++ "/") = true := by
  unfold clusterOf
  dsimp only
  split
  · next hgs => exact Or.inl hgs
  · next hgs =>
    split
    · split
      · right
        exact pyStartsWith_append_left (sp ++ "/") _
      · right
        exact hg.resolve_right hgs
    · split
      · right
        exact pyStartsWith_append_left (sp ++ "/") _
      · right
        exact hg.resolve_right hgs

theorem scoped_key_no_git {sp g top : String} (hs : sp ≠ "")
    (hg1 : pyStartsWith g ".git/" = false)
    (hin : pyStartsWith g (sp ++ "/") = true) :
    sp ++ "/" ++ top ≠ ".git" ∧ pyStartsWith (sp ++ "/" ++ top) ".git/" = false := by
  have hassoc : ((sp ++ "/") ++ top).data = sp.data ++ ('/' :: top.data) := by
    show (sp.data ++ ['/']) ++ top.data = _
    rw [List.append_assoc]
    rfl
  constructor
  · intro heq
    have hsl : '/' ∈ (sp ++ "/" ++ top).data := by
      rw [hassoc]
      exact List.mem_append_right _ (List.mem_cons_self _ _)
    rw [heq] at hsl
    exact absurd hsl (by decide)
  · by_contra hx
    rw [Bool.not_eq_false, pyStartsWith_iff] at hx
    have hq : (sp ++ "/").data <+: ((sp ++ "/") ++ top).data := ⟨top.data, rfl⟩
    rcases List.prefix_or_prefix_of_prefix hx hq with hc | hc
    · have hgp : (sp ++ "/").data <+: g.data := (pyStartsWith_iff _ _).mp hin
      have hgit : pyStartsWith g ".git/" = true := by
        rw [pyStartsWith_iff]
        exact hc.trans hgp
      rw [hgit] at hg1
      cases hg1
    · obtain ⟨w, hw⟩ := hc
      have hw' : sp.data ++ '/' :: w = ['.', 'g', 'i', 't', '/'] := by
        have h1 : (sp ++ "/").data ++ w = sp.data ++ '/' :: w := by
          show (sp.data ++ ['/']) ++ w = _
          rw [List.append_assoc]
          rfl
        rw [← h1, hw]
      obtain ⟨hsp, -⟩ := append_slash_eq hw'
      have hsp' : sp = ".git" := congrArg String.mk hsp
      subst hsp'
      rw [show (".git" : String) ++ "/" = ".git/" from rfl] at hin
      rw [hin] at hg1
      cases hg1

theorem takeWhile_no_slash_no_git (l : List Char) :
    pyStartsWith (⟨l.takeWhile (fun c => c ≠ '/')⟩ : String) ".git/" = false := by
  by_contra hx
  rw [Bool.not_eq_false, pyStartsWith_iff] at hx
  have hsl : '/' ∈ l.takeWhile (fun c => decide (c ≠ '/')) := hx.sublist.mem (by decide)
  have hp := List.mem_takeWhile_imp hsl
  simp at hp

theorem takeWhile_eq_git_contra {g : String}
    (hg1 : pyStartsWith g ".git/" = false)
    (hc : g.data.contains '/' = true)
    (heq : (⟨g.data.takeWhile (fun c => c ≠ '/')⟩ : String) = ".git") : False := by
  have htw : g.data.takeWhile (fun c => decide (c ≠ '/')) = ['.', 'g', 'i', 't'] :=
    congrArg String.data heq
  have hdw : g.data.dropWhile (fun c => decide (c ≠ '/')) ≠ [] := by
    intro hnil
    rw [List.dropWhile_eq_nil_iff] at hnil
    have hm : '/' ∈ g.data := (contains_iff_mem '/' g.data).mp hc
    have := hnil '/' hm
    simp at this
  have hhead : (g.data.dropWhile (fun c => decide (c ≠ '/'))).head hdw = '/' := by
    have hno := List.head_dropWhile_not (fun c => decide (c ≠ '/')) g.data hdw
    simpa using hno
  have hcons : g.data.dropWhile (fun c => decide (c ≠ '/')) =
      '/' :: (g.data.dropWhile (fun c => decide (c ≠ '/'))).tail := by
    conv_lhs => rw [← List.head_cons_tail
      (g.data.dropWhile (fun c => decide (c ≠ '/'))) hdw]
    rw [hhead]
  have hgdata : g.data = ['.', 'g', 'i', 't'] ++
      '/' :: (g.data.dropWhile (fun c => decide (c ≠ '/'))).tail := by
    conv_lhs => rw [← List.takeWhile_append_dropWhile
      (fun c => decide (c ≠ '/')) g.data]
    conv_lhs => rw [htw, hcons]
  have hgit : pyStartsWith g ".git/" = true := by
    rw [pyStartsWith_iff, hgdata]
    exact ⟨(g.data.dropWhile (fun c => decide (c ≠ '/'))).tail, by simp⟩
  rw [hgit] at hg1
  cases hg1

theorem clusterOf_no_git_scoped {sp g : String} (hs : sp ≠ "")
    (hg1 : pyStartsWith g ".git/" = false) (hg2 : g ≠ ".git")
    (hin : pyStartsWith g (sp ++ "/") = true ∨ g = sp) :
    clusterOf sp g ≠ ".git" ∧ pyStartsWith (clusterOf sp g) ".git/" = false := by
  unfold clusterOf
  dsimp only
  split
  · exact ⟨hg2, hg1⟩
  next hgs =>
    have hin' : pyStartsWith g (sp ++ "/") = true := hin.resolve_right hgs
    split
    · split
      · exact scoped_key_no_git hs hg1 hin'
      · exact ⟨hg2, hg1⟩
    · split
      · exact scoped_key_no_git hs hg1 hin'
      · exact ⟨hg2, hg1⟩

theorem clusterOf_no_git_unscoped {g : String}
    (hg1 : pyStartsWith g ".git/" = false) (hg2 : g ≠ ".git")
    (hsl : pyStartsWith g "/" = false) :
    clusterOf "" g ≠ ".git" ∧ pyStartsWith (clusterOf "" g) ".git/" = false := by
  unfold clusterOf
  dsimp only
  split
  · exact ⟨hg2, hg1⟩
  next hgs =>
    split
    next hpos =>
      have hpos' : pyStartsWith g "/" = true := hpos
      rw [hpos'] at hsl
      cases hsl
    next hneg =>
      split
      next hcont =>
        have hcont' : g.data.contains '/' = true := hcont
        constructor
        · intro heq
          exact takeWhile_eq_git_contra hg1 hcont' heq
        · exact takeWhile_no_slash_no_git g.data
      next => exact ⟨hg2, hg1⟩

theorem commitFiles_in_scope {cl : Bool} {sp : String} {c : Commit} {f : String}
    (hs : sp ≠ "") (hn : pyEndsWith sp "/" = false)
    (h : f ∈ commitFiles cl sp c) : f = sp ∨ pyStartsWith f (sp ++ "/") = true := by
  unfold commitFiles at h
  cases cl with
  | false =>
    rw [if_neg (by simp)] at h
    obtain ⟨_, _, _, hsc⟩ := mem_mainFilter sp c.files f h
    rcases hsc hs with h1 | h1
    · right
      rwa [scopePre_eq hn] at h1
    · exact Or.inl h1
  | true =>
    rw [if_pos rfl, List.mem_dedup] at h
    obtain ⟨g, hg, rfl⟩ := List.mem_map.mp h
    obtain ⟨_, _, _, hsc⟩ := mem_mainFilter sp c.files g hg
    have hin := hsc hs
    rw [scopePre_eq hn] at hin
    rcases clusterOf_in_scope hs hin with h1 | h1
    · exact Or.inl h1
    · exact Or.inr h1

theorem commitFiles_no_git {cl : Bool} {sp : String} {c : Commit} {f : String}
    (hpc : ∀ g ∈ c.files, pyStartsWith g "/" = false)
    (hn : pyEndsWith sp "/" = false)
    (h : f ∈ commitFiles cl sp c) :
    f ≠ ".git" ∧ pyStartsWith f ".git/" = false := by
  unfold commitFiles at h
  cases cl with
  | false =>
    rw [if_neg (by simp)] at h
    obtain ⟨_, hgit, hne, _⟩ := mem_mainFilter sp c.files f h
    exact ⟨hne, hgit⟩
  | true =>
    rw [if_pos rfl, List.mem_dedup] at h
    obtain ⟨g, hg, rfl⟩ := List.mem_map.mp h
    obtain ⟨hmem, hgit, hne, hsc⟩ := mem_mainFilter sp c.files g hg
    by_cases hs : sp = ""
    · subst hs
      exact clusterOf_no_git_unscoped hgit hne (hpc g hmem)
    · have hin := hsc hs
      rw [scopePre_eq hn] at hin
      exact clusterOf_no_git_scoped hs hgit hne hin

theorem analyze_key_origin {commits : List Commit} {sp : String} {e : String × FileMeta}
    (h : e ∈ (analyze_history commits sp).1) :
    ∃ c ∈ commits, e.1 ∈ commitFiles (useClustering commits sp) sp c := by
  have hsome : (alookup e.1 (analyze_history commits sp).1).isSome := by
    obtain ⟨k, v⟩ := e
    exact alookup_isSome_of_mem h
  rw [analyze_metadata_alookup] at hsome
  cases hf : firstTouch (useClustering commits sp) sp e.1 commits with
  | none => rw [hf] at hsome; simp at hsome
  | some p =>
    obtain ⟨ts, au⟩ := p
    obtain ⟨c, hc, hk, _⟩ := firstTouch_some_mem _ _ _ hf
    exact ⟨c, hc, hk⟩

theorem dry_imp_main {sp f : String}
    (h : (!(pyStartsWith f ".git") &&
      (decide (sp = "") || pyStartsWith f (scopePre sp) || decide (f = sp))) = true) :
    ((!(pyStartsWith f ".git/") && decide (f ≠ ".git")) &&
      (decide (sp = "") || pyStartsWith f (scopePre sp) || decide (f = sp))) = true := by
  simp only [Bool.and_eq_true, Bool.not_eq_true', decide_eq_true_eq] at h ⊢
  obtain ⟨h1, h2⟩ := h
  refine ⟨⟨?_, ?_⟩, h2⟩
  · by_contra hx
    rw [Bool.not_eq_false] at hx
    have hgit : pyStartsWith f ".git" = true := by
      rw [pyStartsWith_iff] at hx ⊢
      exact List.IsPrefix.trans ⟨['/'], rfl⟩ hx
    rw [hgit] at h1
    cases h1
  · intro heq
    subst heq
    have hgit : pyStartsWith ".git" ".git" = true := by decide
    rw [hgit] at h1
    cases h1

theorem dry_nil_of_main_nil {sp : String} {files : List String}
    (h : mainFilter sp files = []) : dryFilter sp files = [] := by
  rw [mainFilter_eq, List.filter_eq_nil_iff] at h
  rw [dryFilter_eq, List.filter_eq_nil_iff]
  intro f hf hdp
  exact h f hf (dry_imp_main hdp)

theorem stepCommit_skip {cl : Bool} {sp : String} {st : AState} {c : Commit}
    (h : mainFilter sp c.files = []) : stepCommit cl sp st c = st := by
  unfold stepCommit
  rw [h]
  simp

theorem foldl_filter_eq (cl : Bool) (sp : String) :
    ∀ (commits : List Commit) (st : AState),
      (commits.filter (fun c => !(mainFilter sp c.files).isEmpty)).foldl
          (stepCommit cl sp) st =
        commits.foldl (stepCommit cl sp) st
  | [], _ => rfl
  | c :: commits, st => by
    by_cases h : (mainFilter sp c.files).isEmpty
    · have h0 : mainFilter sp c.files = [] := List.isEmpty_iff.mp h
      rw [List.filter_cons, if_neg (by simp [h]), List.foldl_cons,
        stepCommit_skip h0, foldl_filter_eq cl sp commits]
    · rw [List.filter_cons, if_pos (by simp [h]), List.foldl_cons, List.foldl_cons,
        foldl_filter_eq cl sp commits]

theorem flatten_map_keep {α β : Type} (g : α → List β) (keep : α → Bool)
    (hnil : ∀ a, keep a = false → g a = []) :
    ∀ l : List α, ((l.filter keep).map g).flatten = (l.map g).flatten
  | [] => rfl
  | a :: l => by
    by_cases h : keep a
    · rw [List.filter_cons, if_pos (by simp [h]), List.map_cons, List.map_cons,
        List.flatten_cons, List.flatten_cons, flatten_map_keep g keep hnil l]
    · rw [List.filter_cons, if_neg (by simp [h]), List.map_cons, List.flatten_cons,
        hnil a (by simpa using h), flatten_map_keep g keep hnil l, List.nil_append]

theorem useClustering_filter_eq (commits : List Commit) (sp : String) :
    useClustering (commits.filter (fun c => !(mainFilter sp c.files).isEmpty)) sp =
      useClustering commits sp := by
  unfold useClustering allFilesCount
  have hfl := flatten_map_keep (fun c => dryFilter sp c.files)
    (fun c => !(mainFilter sp c.files).isEmpty)
    (fun c hc => dry_nil_of_main_nil (List.isEmpty_iff.mp (by simpa using hc))) commits
  rw [hfl]

/-- C5: for repository-relative inputs (no path starts with `'/'`, per
the data model) and a normalized scope (no trailing separator, per the
spec's step 1 — the empty scope trivially satisfies this): with a scope
given every metadata key equals the scope or extends `scope + "/"`;
regardless of scope no key equals `.git` or starts with `.git/`; and
commits whose filtered file list is empty contribute nothing — removing
them leaves the analysis unchanged. -/
theorem c5_scope_invariants (commits : List Commit) (subpath : String)
    (hpaths : ∀ c ∈ commits, ∀ f ∈ c.files, pyStartsWith f "/" = false)
    (hn : pyEndsWith subpath "/" = false) :
    (subpath ≠ "" → ∀ e ∈ (analyze_history commits subpath).1,
       e.1 = subpath ∨ pyStartsWith e.1 (subpath ++ "/") = true) ∧
    (∀ e ∈ (analyze_history commits subpath).1,
       e.1 ≠ ".git" ∧ pyStartsWith e.1 ".git/" = false) ∧
    analyze_history commits subpath =
      analyze_history (commits.filter (fun c => !(mainFilter subpath c.files).isEmpty))
        subpath := by
  refine ⟨?_, ?_, ?_⟩
  · intro hs e he
    obtain ⟨c, hc, hk⟩ := analyze_key_origin he
    exact commitFiles_in_scope hs hn hk
  · intro e he
    obtain ⟨c, hc, hk⟩ := analyze_key_origin he
    exact commitFiles_no_git (hpaths c hc) hn hk
  · unfold analyze_history
    dsimp only
    rw [useClustering_filter_eq, foldl_filter_eq]

/-- Concrete input for the `c5_scope_invariants` witness; the third
commit's filtered list is empty. -/
def c5Commits : List Commit :=
  [{ hash := "h1", timestamp := 1, author := "alice", subject := "s",
     files := ["src/a.py", "lib/b.py", ".git/config"] },
   { hash := "h2", timestamp := 2, author := "bob", subject := "s",
     files := ["src/d/e.py", "src"] },
   { hash := "h3", timestamp := 3, author := "cy", subject := "s",
     files := [".git/x"] }]

/-- Witness for `c5_scope_invariants` at a scoped concrete input. -/
theorem c5_witness :
    ("src/a.py" = "src" ∨ pyStartsWith "src/a.py" ("src" ++ "/") = true) ∧
    ("src/a.py" ≠ ".git" ∧ pyStartsWith "src/a.py" ".git/" = false) ∧
    analyze_history c5Commits "src" =
      analyze_history (c5Commits.filter (fun c => !(mainFilter "src" c.files).isEmpty))
        "src" := by
  have h := c5_scope_invariants c5Commits "src" (by decide) (by decide)
  exact ⟨h.1 (by decide) ("src/a.py", { size := 1, createdAt := 1, owner := "alice" })
           (by decide),
         h.2.1 ("src/a.py", { size := 1, createdAt := 1, owner := "alice" }) (by decide),
         h.2.2⟩
